import Mathlib

/-!
# Pride: a minimal threaded unit testing framework for C (`src/pride.h`)

A shallow embedding of the unit scheduler (`p_set_thread_num`, `p_assert`, `p_test`,
`p_finish`) and of the prefixed logger (`log_vsprintf`, `log_fvprintf`, `log_fvp` ..
`log_fvwtf`, `log_vp` .. `log_vwtf`), followed by theorems about them.

Modelling conventions.
* The global structs `P_SETTINGS`, `P_STATUS`, `LOG_SETTINGS` become explicit values that are
  passed to and returned from the functions.
* `int` fields are `Int` values in the range `INT_MIN .. INT_MAX` of a 32-bit `int`; the
  increment `x++` of a counter is `wrap_int (x + 1)`, which wraps from `INT_MAX` to `INT_MIN` as
  on two's complement targets (ISO C leaves signed overflow undefined). Theorems that state
  plain sums carry the hypothesis that the counters stay within `INT_MAX`.
* `pthread_t threads[MAX_THREAD_NUM + 1]` is a map from index to handle in which `0` is `NULL`;
  every access checks `0 <= index < MAX_THREAD_NUM + 1` and an access outside the array makes the
  function return `none`.
* `pthread_create` is assumed to succeed; the handle it stores is an input of `p_test`.
  The calls `pthread_join(t, NULL)` and `pthread_create` are recorded as events `join t` and
  `start t`, in program order.
* The body of a unit is the sequence of the conditions of the `p_assert` calls it makes.
* The text written by `log_p`, `log_i`, `log_e` inside the scheduler is output only (it never
  touches `P_STATUS`) and is not part of the scheduler's state or event trace.
* A C string is the list of its bytes before the terminating NUL. The format string handed to
  `vsprintf` or `vfprintf` is the result of the logging functions; the expansion of its
  conversions is not modelled. `malloc` is assumed to succeed.
* The unit body of a worker thread runs concurrently with the main thread, on counters that
  no lock protects; it is not part of `p_test` and is not modelled. A unit body is executed in
  the model only where `p_test` itself calls it, in the non-threaded branch.
-/

namespace Pride

/-! ## Internal constraints -/

def MAX_PREFIX_STRLEN : Nat := 64
def MAX_LOGFMT_STRLEN : Nat := 256
def MAX_THREAD_NUM : Nat := 256

/-! ## The C type `int` -/

def INT_MIN : Int := -2147483648
def INT_MAX : Int := 2147483647

/-- Reduction of an integer to the range of a 32-bit two's complement `int`. -/
def wrap_int (x : Int) : Int :=
  (x + 2147483648) % 4294967296 - 2147483648

/-! ## Unit testing: data -/

/-- The part of the global `P_SETTINGS` that the scheduler reads: `int thread_num`. (The message
templates `unit_fmt`, `assertion_fmt`, ... are only handed to the logger.) -/
structure PSettings where
  thread_num : Int
  deriving DecidableEq, Repr

/-- Initial value of the global `P_SETTINGS`. -/
def P_SETTINGS : PSettings := { thread_num := 0 }

/-- The global `P_STATUS`. `threads i` is `threads[i]`, meaningful for `i < MAX_THREAD_NUM + 1`;
the value `0` is `NULL`. -/
structure PStatus where
  threads : Nat → Nat
  thread_index : Int
  unit_num : Int
  assertion_num : Int
  assertion_passed_num : Int
  assertion_failed_num : Int

/-- Initial value of the global `P_STATUS`: `.threads = {NULL}` and every counter `0`. -/
def P_STATUS : PStatus :=
  { threads := fun _ => 0
    thread_index := 0
    unit_num := 0
    assertion_num := 0
    assertion_passed_num := 0
    assertion_failed_num := 0 }

/-- A thread operation issued by the scheduler. -/
inductive Event where
  | join (t : Nat)
  | start (t : Nat)
  deriving DecidableEq, Repr

/-! ## Unit testing: functions -/

/-- `int p_set_thread_num(int thread_num) { return P_SETTINGS.thread_num = thread_num; }`:
the returned value and the new settings. -/
def p_set_thread_num (_cfg : PSettings) (thread_num : Int) : Int × PSettings :=
  (thread_num, { thread_num := thread_num })

/-- `p_assert(assertion_msg, assertion_t)`: `assertion_num++`, then `assertion_passed_num++` or
`assertion_failed_num++` (the log line is output only). -/
def p_assert (s : PStatus) (assertion_t : Bool) : PStatus :=
  let s1 := { s with assertion_num := wrap_int (s.assertion_num + 1) }
  if assertion_t then
    { s1 with assertion_passed_num := wrap_int (s1.assertion_passed_num + 1) }
  else
    { s1 with assertion_failed_num := wrap_int (s1.assertion_failed_num + 1) }

/-- Index into `threads[MAX_THREAD_NUM + 1]`: `none` when outside the array. -/
def slot (i : Int) : Option Nat :=
  if 0 ≤ i ∧ i < (MAX_THREAD_NUM : Int) + 1 then some i.toNat else none

/-- `p_test(unit_msg, unit_func)`. `tid` is the handle stored by `pthread_create` (used in the
threaded branch only), `unit_func` the conditions of the `p_assert` calls of the unit body (run
by `p_test` itself in the non-threaded branch only; in the threaded branch the body belongs to
the new thread). C's `%` is `Int.tmod`. -/
def p_test (cfg : PSettings) (s : PStatus) (tid : Nat) (unit_func : List Bool) :
    Option (PStatus × List Event) :=
  if cfg.thread_num ≠ 0 then
    -- threaded
    match slot s.thread_index with
    | none => none
    | some i =>
      some ({ s with
                threads := Function.update s.threads i tid
                thread_index := Int.tmod (s.thread_index + 1) cfg.thread_num },
            (if s.threads i ≠ 0 then [Event.join (s.threads i)] else []) ++ [Event.start tid])
  else
    -- non-threaded
    some (unit_func.foldl p_assert
      { s with unit_num := wrap_int (s.unit_num + 1), assertion_num := 0 }, [])

/-- The loop of `p_finish` at index `i` with `n` iterations to go:
`if (P_STATUS.threads[i]) pthread_join(P_STATUS.threads[i], NULL);`. -/
def p_finish_loop (s : PStatus) : Nat → Nat → Option (List Event)
  | _, 0 => some []
  | i, n + 1 =>
    if i < MAX_THREAD_NUM + 1 then
      match p_finish_loop s (i + 1) n with
      | some evs => some ((if s.threads i ≠ 0 then [Event.join (s.threads i)] else []) ++ evs)
      | none => none
    else none

/-- `p_finish()`: `for (int i = 0; i < P_SETTINGS.thread_num; i++)` over the loop body above.
Nothing in `P_STATUS` is written. -/
def p_finish (cfg : PSettings) (s : PStatus) : Option (PStatus × List Event) :=
  match p_finish_loop s 0 cfg.thread_num.toNat with
  | some evs => some (s, evs)
  | none => none

/-! ## Unit testing: runs -/

/-- One `p_test` call of a run: the handle `pthread_create` yields and the unit body. -/
structure Submission where
  tid : Nat
  unit_func : List Bool
  deriving DecidableEq, Repr

/-- What one `p_test` call of a run did: the cursor it found and the thread operations it
issued. -/
structure Call where
  cursor : Int
  events : List Event
  deriving DecidableEq, Repr

/-- A sequence of `p_test` calls, one per submission, recording each call. -/
def p_test_calls (cfg : PSettings) : PStatus → List Submission → Option (PStatus × List Call)
  | s, [] => some (s, [])
  | s, x :: rest =>
    match p_test cfg s x.tid x.unit_func with
    | none => none
    | some (s1, evs) =>
      match p_test_calls cfg s1 rest with
      | none => none
      | some (s2, calls) => some (s2, { cursor := s.thread_index, events := evs } :: calls)

/-- The event trace of a list of calls. -/
def trace (calls : List Call) : List Event :=
  calls.flatMap Call.events

/-- Replay of one event on the list of live threads: a started thread is appended, a joined
thread is removed. -/
def live_step (l : List Nat) : Event → List Nat
  | Event.start t => l ++ [t]
  | Event.join t => l.erase t

/-- The threads that were started and not joined since, after the events of a trace. -/
def live (tr : List Event) : List Nat :=
  tr.foldl live_step []

/-- The handles of a list of submissions. -/
def tids (subs : List Submission) : List Nat :=
  subs.map Submission.tid

/-! ## Logging: data -/

/-- `SGR(code)` is the string `"\33[" code "m"`: ESC (octal 33, decimal 27), `[`, the code,
`m` (109). -/
def SGR (code : List Nat) : List Nat :=
  [27, 91] ++ code ++ [109]

def SGR_RESET : List Nat := SGR [48]
def SGR_BOLD : List Nat := SGR [49]
def SGR_RED : List Nat := SGR [51, 49]
def SGR_GREEN : List Nat := SGR [51, 50]
def SGR_YELLOW : List Nat := SGR [51, 51]
def SGR_BLUE : List Nat := SGR [51, 52]

/-- The global `LOG_SETTINGS`. -/
structure LogSettings where
  sgr : Bool
  sgr_f : Bool
  p_stdout : Bool
  v_stdout : Bool
  d_stdout : Bool
  i_stdout : Bool
  w_stdout : Bool
  e_stdout : Bool
  wtf_stdout : Bool
  p_prefix : List Nat
  v_prefix : List Nat
  d_prefix : List Nat
  i_prefix : List Nat
  w_prefix : List Nat
  e_prefix : List Nat
  wtf_prefix : List Nat
  deriving DecidableEq, Repr

/-- Initial value of the global `LOG_SETTINGS`. -/
def LOG_SETTINGS : LogSettings :=
  { sgr := true
    sgr_f := false
    p_stdout := false
    v_stdout := false
    d_stdout := false
    i_stdout := false
    w_stdout := false
    e_stdout := false
    wtf_stdout := false
    p_prefix := SGR_RESET
    v_prefix := SGR_RESET
    d_prefix := SGR_BLUE
    i_prefix := SGR_GREEN ++ SGR_BOLD
    w_prefix := SGR_YELLOW ++ SGR_BOLD
    e_prefix := SGR_RED ++ SGR_BOLD
    wtf_prefix := SGR_RED ++ SGR_BOLD }

/-- The two streams the logger chooses between. -/
inductive FILE where
  | stdout
  | stderr
  deriving DecidableEq, Repr

/-- What a logging call hands to `vfprintf`: the stream and the format string `logfmt`
(`none` when `logfmt` is not a terminated string, so that its contents are indeterminate). -/
structure Emit where
  stream : FILE
  logfmt : Option (List Nat)
  deriving DecidableEq, Repr

/-! ## Logging: functions -/

/-- The bytes of the C string that starts at the given bytes: those before the first NUL. -/
def c_str (bytes : List Nat) : List Nat :=
  bytes.takeWhile (fun c => c ≠ 0)

/-- The stripping loop of `log_vsprintf` and `log_fvprintf` over the bytes `prefix[i]`, with the
flag `is_sgr`; the result is the bytes stored by `logfmt[j++] = prefix[i]`, in order. -/
def strip_loop : Bool → List Nat → List Nat
  | _, [] => []
  | false, c :: cs => if c = 27 then strip_loop true cs else c :: strip_loop false cs
  | true, c :: cs => if c = 109 then strip_loop false cs else strip_loop true cs

/-- The bytes stored into `logfmt` before `strcat`: `strcpy(logfmt, prefix)` when the colours
are kept, else the loop for `i = 0 .. strlen(prefix)`, terminator included. -/
def fill_logfmt (keep : Bool) (pfx : List Nat) : List Nat :=
  if keep then c_str pfx ++ [0] else strip_loop false (c_str pfx ++ [0])

/-- `strcat(strcat(logfmt, format), SGR_RESET)` on a buffer that holds the given stored bytes and
is indeterminate after them: defined only if a NUL was stored. -/
def strcat_format_reset (stored : List Nat) (format : List Nat) : Option (List Nat) :=
  if 0 ∈ stored then some (c_str stored ++ c_str format ++ SGR_RESET) else none

/-- `log_vsprintf(buf, prefix, format, ap)`: the format string handed to `vsprintf`. The colours
are kept iff `LOG_SETTINGS.sgr`. -/
def log_vsprintf (L : LogSettings) (pfx format : List Nat) : Option (List Nat) :=
  strcat_format_reset (fill_logfmt L.sgr pfx) format

/-- `log_fvprintf(stream, prefix, format, ap)`; `isatty` tells which streams are terminals. -/
def log_fvprintf (L : LogSettings) (isatty : FILE → Bool) (stream : FILE)
    (pfx format : List Nat) : Emit :=
  let is_tty := isatty stream
  { stream := stream
    logfmt :=
      strcat_format_reset (fill_logfmt ((is_tty && L.sgr) || (!is_tty && L.sgr_f)) pfx) format }

def log_fvp (L : LogSettings) (isatty : FILE → Bool) (stream : FILE) (format : List Nat) : Emit :=
  log_fvprintf L isatty stream L.p_prefix format

def log_fvv (L : LogSettings) (isatty : FILE → Bool) (stream : FILE) (format : List Nat) : Emit :=
  log_fvprintf L isatty stream L.v_prefix format

def log_fvd (L : LogSettings) (isatty : FILE → Bool) (stream : FILE) (format : List Nat) : Emit :=
  log_fvprintf L isatty stream L.d_prefix format

def log_fvi (L : LogSettings) (isatty : FILE → Bool) (stream : FILE) (format : List Nat) : Emit :=
  log_fvprintf L isatty stream L.i_prefix format

def log_fvw (L : LogSettings) (isatty : FILE → Bool) (stream : FILE) (format : List Nat) : Emit :=
  log_fvprintf L isatty stream L.w_prefix format

def log_fve (L : LogSettings) (isatty : FILE → Bool) (stream : FILE) (format : List Nat) : Emit :=
  log_fvprintf L isatty stream L.e_prefix format

def log_fvwtf (L : LogSettings) (isatty : FILE → Bool) (stream : FILE) (format : List Nat) : Emit :=
  log_fvprintf L isatty stream L.wtf_prefix format

def log_vp (L : LogSettings) (isatty : FILE → Bool) (format : List Nat) : Emit :=
  log_fvp L isatty (if L.p_stdout then FILE.stdout else FILE.stderr) format

def log_vv (L : LogSettings) (isatty : FILE → Bool) (format : List Nat) : Emit :=
  log_fvv L isatty (if L.p_stdout then FILE.stdout else FILE.stderr) format

def log_vd (L : LogSettings) (isatty : FILE → Bool) (format : List Nat) : Emit :=
  log_fvd L isatty (if L.p_stdout then FILE.stdout else FILE.stderr) format

def log_vi (L : LogSettings) (isatty : FILE → Bool) (format : List Nat) : Emit :=
  log_fvi L isatty (if L.p_stdout then FILE.stdout else FILE.stderr) format

def log_vw (L : LogSettings) (isatty : FILE → Bool) (format : List Nat) : Emit :=
  log_fvw L isatty (if L.p_stdout then FILE.stdout else FILE.stderr) format

def log_ve (L : LogSettings) (isatty : FILE → Bool) (format : List Nat) : Emit :=
  log_fve L isatty (if L.p_stdout then FILE.stdout else FILE.stderr) format

def log_vwtf (L : LogSettings) (isatty : FILE → Bool) (format : List Nat) : Emit :=
  log_fvwtf L isatty (if L.p_stdout then FILE.stdout else FILE.stderr) format

/-! ## Logging: the stripped prefix in the words of the specification -/

/-- The bytes after the next `m` (109). -/
def after_m : List Nat → List Nat
  | [] => []
  | c :: cs => if c = 109 then cs else after_m cs

/-- Removal of every escape sequence, each running from an ESC byte through the next `m`; the
first argument bounds the number of bytes looked at. -/
def strip_sgr_aux : Nat → List Nat → List Nat
  | 0, _ => []
  | _ + 1, [] => []
  | n + 1, c :: cs => if c = 27 then strip_sgr_aux n (after_m cs) else c :: strip_sgr_aux n cs

/-- The prefix with every escape sequence removed and all other bytes kept in order. -/
def strip_sgr (pfx : List Nat) : List Nat :=
  strip_sgr_aux pfx.length pfx

/-- Every ESC byte of the string is followed, later on, by an `m`. -/
def sgr_closed : List Nat → Bool
  | [] => true
  | c :: cs => (c != 27 || cs.contains 109) && sgr_closed cs

/-- The joins `p_finish` issues for the slots of a list of indices: one per occupied slot. -/
def joins_of (s : PStatus) (idxs : List Nat) : List Event :=
  idxs.flatMap (fun i => if s.threads i ≠ 0 then [Event.join (s.threads i)] else [])

/-- The thread operations of call `k` (counted from 0) of a threaded run with pool size `N`, in
the words of the specification: the call joins the thread of submission `k - N`, if there is
one, and then starts the thread of submission `k`. `hs` lists the handles by submission. -/
def expected_events (N : Nat) (hs : List Nat) (k : Nat) : List Event :=
  (if N ≤ k then [Event.join (hs.getD (k - N) 0)] else []) ++ [Event.start (hs.getD k 0)]

/-- The state of the scheduler after the submissions with handles `hs`, pool size `N`: the
cursor is the number of submissions modulo `N`, each of the last `N` submissions `j` sits in
slot `j mod N`, and the slots from the number of submissions on were never used. -/
structure RunInv (N : Nat) (hs : List Nat) (s : PStatus) : Prop where
  cursor : s.thread_index = ((hs.length % N : Nat) : Int)
  recent : ∀ j, j < hs.length → hs.length ≤ j + N → s.threads (j % N) = hs.getD j 0
  unused : ∀ i, hs.length ≤ i → s.threads i = 0

/-- The handles held by the slots below `N`, in slot order. -/
def occupied (N : Nat) (s : PStatus) : List Nat :=
  ((List.range N).map s.threads).filter (fun t => t ≠ 0)

/-- Three submissions A, B, C with the handles 1, 2, 3 and empty unit bodies. -/
def submit_ABC : List Submission :=
  [{ tid := 1, unit_func := [] }, { tid := 2, unit_func := [] }, { tid := 3, unit_func := [] }]

theorem wrap_int_eq (x : Int) (h1 : INT_MIN ≤ x) (h2 : x ≤ INT_MAX) : wrap_int x = x := by
  unfold wrap_int
  unfold INT_MIN at h1
  unfold INT_MAX at h2
  omega

theorem foldl_p_assert_threads (body : List Bool) (s : PStatus) :
    (body.foldl p_assert s).threads = s.threads
      ∧ (body.foldl p_assert s).thread_index = s.thread_index
      ∧ (body.foldl p_assert s).unit_num = s.unit_num := by
  induction body generalizing s with
  | nil => simp
  | cons b bs ih =>
    rw [List.foldl_cons]
    obtain ⟨h1, h2, h3⟩ := ih (p_assert s b)
    rw [h1, h2, h3]
    cases b <;> simp [p_assert]

theorem p_assert_true (s : PStatus) :
    p_assert s true
      = { s with
            assertion_num := wrap_int (s.assertion_num + 1)
            assertion_passed_num := wrap_int (s.assertion_passed_num + 1) } := rfl

theorem p_assert_false (s : PStatus) :
    p_assert s false
      = { s with
            assertion_num := wrap_int (s.assertion_num + 1)
            assertion_failed_num := wrap_int (s.assertion_failed_num + 1) } := rfl

/-- While no counter passes `INT_MAX`, a unit body adds its number of assertions to
`assertion_num`, its number of true conditions to `assertion_passed_num` and its number of
false conditions to `assertion_failed_num`. -/
theorem foldl_p_assert_counters (body : List Bool) (s : PStatus)
    (hn : INT_MIN ≤ s.assertion_num ∧ s.assertion_num + (body.length : Int) ≤ INT_MAX)
    (hp : INT_MIN ≤ s.assertion_passed_num
      ∧ s.assertion_passed_num + ((body.count true : Nat) : Int) ≤ INT_MAX)
    (hf : INT_MIN ≤ s.assertion_failed_num
      ∧ s.assertion_failed_num + ((body.count false : Nat) : Int) ≤ INT_MAX) :
    (body.foldl p_assert s).assertion_num = s.assertion_num + (body.length : Int)
      ∧ (body.foldl p_assert s).assertion_passed_num
        = s.assertion_passed_num + ((body.count true : Nat) : Int)
      ∧ (body.foldl p_assert s).assertion_failed_num
        = s.assertion_failed_num + ((body.count false : Nat) : Int) := by
  induction body generalizing s with
  | nil => simp
  | cons b bs ih =>
    rw [List.foldl_cons]
    have hlen : (((b :: bs).length : Nat) : Int) = (bs.length : Int) + 1 := by simp
    rw [hlen] at hn
    have ea : wrap_int (s.assertion_num + 1) = s.assertion_num + 1 :=
      wrap_int_eq _ (by omega) (by omega)
    cases b with
    | true =>
      have hct : (((true :: bs).count true : Nat) : Int) = ((bs.count true : Nat) : Int) + 1 := by
        simp
      have hcf : (((true :: bs).count false : Nat) : Int) = ((bs.count false : Nat) : Int) := by
        simp
      rw [hct] at hp
      rw [hcf] at hf
      have ep : wrap_int (s.assertion_passed_num + 1) = s.assertion_passed_num + 1 :=
        wrap_int_eq _ (by omega) (by omega)
      rw [p_assert_true, ea, ep, hlen, hct, hcf]
      obtain ⟨h1, h2, h3⟩ := ih
        { s with
            assertion_num := s.assertion_num + 1
            assertion_passed_num := s.assertion_passed_num + 1 }
        (by dsimp only; omega) (by dsimp only; omega) (by dsimp only; omega)
      dsimp only at h1 h2 h3
      exact ⟨by omega, by omega, by omega⟩
    | false =>
      have hct : (((false :: bs).count true : Nat) : Int) = ((bs.count true : Nat) : Int) := by
        simp
      have hcf : (((false :: bs).count false : Nat) : Int)
          = ((bs.count false : Nat) : Int) + 1 := by
        simp
      rw [hct] at hp
      rw [hcf] at hf
      have ef : wrap_int (s.assertion_failed_num + 1) = s.assertion_failed_num + 1 :=
        wrap_int_eq _ (by omega) (by omega)
      rw [p_assert_false, ea, ef, hlen, hct, hcf]
      obtain ⟨h1, h2, h3⟩ := ih
        { s with
            assertion_num := s.assertion_num + 1
            assertion_failed_num := s.assertion_failed_num + 1 }
        (by dsimp only; omega) (by dsimp only; omega) (by dsimp only; omega)
      dsimp only at h1 h2 h3
      exact ⟨by omega, by omega, by omega⟩

/-- The non-threaded branch of `p_test` while no counter passes `INT_MAX`. -/
theorem p_test_inline_eq (cfg : PSettings) (s : PStatus) (tid : Nat) (body : List Bool)
    (h0 : cfg.thread_num = 0)
    (hu : INT_MIN ≤ s.unit_num ∧ s.unit_num + 1 ≤ INT_MAX)
    (hn : ((body.length : Nat) : Int) ≤ INT_MAX)
    (hp : INT_MIN ≤ s.assertion_passed_num
      ∧ s.assertion_passed_num + ((body.count true : Nat) : Int) ≤ INT_MAX)
    (hf : INT_MIN ≤ s.assertion_failed_num
      ∧ s.assertion_failed_num + ((body.count false : Nat) : Int) ≤ INT_MAX) :
    ∃ s1, p_test cfg s tid body = some (s1, [])
      ∧ s1.unit_num = s.unit_num + 1
      ∧ s1.assertion_num = ((body.length : Nat) : Int)
      ∧ s1.assertion_passed_num = s.assertion_passed_num + ((body.count true : Nat) : Int)
      ∧ s1.assertion_failed_num = s.assertion_failed_num + ((body.count false : Nat) : Int)
      ∧ s1.threads = s.threads
      ∧ s1.thread_index = s.thread_index := by
  refine ⟨body.foldl p_assert
      { s with unit_num := wrap_int (s.unit_num + 1), assertion_num := 0 },
    by simp [p_test, h0], ?_⟩
  obtain ⟨h1, h2, h3⟩ := foldl_p_assert_threads body
    { s with unit_num := wrap_int (s.unit_num + 1), assertion_num := 0 }
  obtain ⟨h4, h5, h6⟩ := foldl_p_assert_counters body
    { s with unit_num := wrap_int (s.unit_num + 1), assertion_num := 0 }
    (by dsimp only; unfold INT_MIN; omega) hp hf
  dsimp only at h1 h2 h3 h4 h5 h6
  refine ⟨?_, ?_, h5, h6, h1, h2⟩
  · rw [h3]
    exact wrap_int_eq _ (by omega) (by omega)
  · rw [h4]
    omega

/-- C5. With `thread_num = 0`, `p_test` runs the whole unit body before it returns and starts
no thread: on return `unit_num` is one more, `assertion_num` is the number of true plus the
number of false conditions of the body whatever it was before, `assertion_passed_num` and
`assertion_failed_num` have grown by those two numbers, and the slot table and the cursor are
unchanged. The counters are C `int`s: the statement is for the calls in which none of them
passes `INT_MAX`. -/
theorem p_test_inline_runs_unit (cfg : PSettings) (s : PStatus) (tid : Nat) (body : List Bool)
    (h0 : cfg.thread_num = 0)
    (hu : INT_MIN ≤ s.unit_num ∧ s.unit_num + 1 ≤ INT_MAX)
    (hn : ((body.count true + body.count false : Nat) : Int) ≤ INT_MAX)
    (hp : INT_MIN ≤ s.assertion_passed_num
      ∧ s.assertion_passed_num + ((body.count true : Nat) : Int) ≤ INT_MAX)
    (hf : INT_MIN ≤ s.assertion_failed_num
      ∧ s.assertion_failed_num + ((body.count false : Nat) : Int) ≤ INT_MAX) :
    ∃ s1, p_test cfg s tid body = some (s1, [])
      ∧ s1.unit_num = s.unit_num + 1
      ∧ s1.assertion_num = ((body.count true + body.count false : Nat) : Int)
      ∧ s1.assertion_passed_num = s.assertion_passed_num + ((body.count true : Nat) : Int)
      ∧ s1.assertion_failed_num = s.assertion_failed_num + ((body.count false : Nat) : Int)
      ∧ s1.threads = s.threads
      ∧ s1.thread_index = s.thread_index := by
  rw [List.count_true_add_count_false] at hn ⊢
  exact p_test_inline_eq cfg s tid body h0 hu hn hp hf

theorem p_test_inline_runs_unit_witness :
    P_SETTINGS.thread_num = 0
      ∧ (INT_MIN ≤ { P_STATUS with assertion_num := 5 }.unit_num
        ∧ { P_STATUS with assertion_num := 5 }.unit_num + 1 ≤ INT_MAX)
      ∧ (([true, false].count true + [true, false].count false : Nat) : Int) ≤ INT_MAX
      ∧ (INT_MIN ≤ { P_STATUS with assertion_num := 5 }.assertion_passed_num
        ∧ { P_STATUS with assertion_num := 5 }.assertion_passed_num
          + (([true, false].count true : Nat) : Int) ≤ INT_MAX)
      ∧ (INT_MIN ≤ { P_STATUS with assertion_num := 5 }.assertion_failed_num
        ∧ { P_STATUS with assertion_num := 5 }.assertion_failed_num
          + (([true, false].count false : Nat) : Int) ≤ INT_MAX)
      ∧ ∃ s1, p_test P_SETTINGS { P_STATUS with assertion_num := 5 } 0 [true, false]
          = some (s1, [])
        ∧ s1.unit_num = { P_STATUS with assertion_num := 5 }.unit_num + 1
        ∧ s1.assertion_num = (([true, false].count true + [true, false].count false : Nat) : Int)
        ∧ s1.assertion_passed_num
          = { P_STATUS with assertion_num := 5 }.assertion_passed_num
            + (([true, false].count true : Nat) : Int)
        ∧ s1.assertion_failed_num
          = { P_STATUS with assertion_num := 5 }.assertion_failed_num
            + (([true, false].count false : Nat) : Int)
        ∧ s1.threads = { P_STATUS with assertion_num := 5 }.threads
        ∧ s1.thread_index = { P_STATUS with assertion_num := 5 }.thread_index :=
  ⟨rfl, by decide, by decide, by decide, by decide,
    p_test_inline_runs_unit P_SETTINGS { P_STATUS with assertion_num := 5 } 0 [true, false] rfl
      (by decide) (by decide) (by decide) (by decide)⟩

/-- At `INT_MAX` the increments wrap: `unit_num++` in `p_test` and `assertion_num++` in
`p_assert` give `INT_MIN`. -/
theorem counters_wrap_at_int_max :
    (p_test P_SETTINGS { P_STATUS with unit_num := 2147483647 } 0 []).map
        (fun r => r.1.unit_num) = some (-2147483648)
      ∧ (p_assert { P_STATUS with assertion_num := 2147483647 } true).assertion_num
        = -2147483648 := by
  decide

theorem slot_natCast (i : Nat) (h : i < MAX_THREAD_NUM + 1) : slot (i : Int) = some i := by
  unfold slot
  rw [if_pos]
  · simp
  · constructor
    · omega
    · exact_mod_cast h

theorem tmod_succ_natCast (i N : Nat) :
    Int.tmod ((i : Int) + 1) (N : Int) = (((i + 1) % N : Nat) : Int) := by
  rw [Int.tmod_eq_emod (by omega) (by omega)]
  push_cast
  rfl

/-- C6. With `thread_num = N`, `1 <= N <= MAX_THREAD_NUM`, and the cursor at `i < N`, a `p_test`
call succeeds (its slot access is inside the table), stores the new handle in slot `i`, moves
the cursor to `(i + 1) mod N`, which is again in `0 .. N-1`, leaves every other slot as it was,
and changes neither `unit_num` nor `assertion_num` (nor the other two counters). -/
theorem p_test_threaded_frame (cfg : PSettings) (N i : Nat) (s : PStatus) (tid : Nat)
    (unit_func : List Bool) (hN : cfg.thread_num = (N : Int)) (h1 : 1 ≤ N)
    (h2 : N ≤ MAX_THREAD_NUM) (hi : i < N) (hc : s.thread_index = (i : Int)) :
    ∃ s1 evs, p_test cfg s tid unit_func = some (s1, evs)
      ∧ slot s.thread_index = some i
      ∧ i < MAX_THREAD_NUM + 1
      ∧ s1.threads i = tid
      ∧ Event.start tid ∈ evs
      ∧ s1.thread_index = (((i + 1) % N : Nat) : Int)
      ∧ 0 ≤ s1.thread_index ∧ s1.thread_index < (N : Int)
      ∧ (∀ j, j ≠ i → s1.threads j = s.threads j)
      ∧ s1.unit_num = s.unit_num
      ∧ s1.assertion_num = s.assertion_num
      ∧ s1.assertion_passed_num = s.assertion_passed_num
      ∧ s1.assertion_failed_num = s.assertion_failed_num := by
  have hi1 : i < MAX_THREAD_NUM + 1 := by omega
  have hs : slot s.thread_index = some i := by rw [hc]; exact slot_natCast i hi1
  have hne : cfg.thread_num ≠ 0 := by rw [hN]; exact_mod_cast (by omega : N ≠ 0)
  have hlt : (i + 1) % N < N := Nat.mod_lt _ (by omega)
  refine ⟨{ s with
      threads := Function.update s.threads i tid
      thread_index := Int.tmod (s.thread_index + 1) cfg.thread_num },
    (if s.threads i ≠ 0 then [Event.join (s.threads i)] else []) ++ [Event.start tid],
    by simp only [p_test, hs, if_pos hne], hs, hi1, by simp, by simp, ?_, ?_, ?_, ?_,
    rfl, rfl, rfl, rfl⟩
  · simp only [hN, hc]; exact tmod_succ_natCast i N
  · simp only [hN, hc, tmod_succ_natCast]; omega
  · simp only [hN, hc, tmod_succ_natCast]; exact_mod_cast hlt
  · intro j hj
    simp [Function.update, hj]

theorem p_test_threaded_frame_witness :
    (⟨2⟩ : PSettings).thread_num = ((2 : Nat) : Int) ∧ 1 ≤ 2 ∧ 2 ≤ MAX_THREAD_NUM ∧ 1 < 2
      ∧ { P_STATUS with thread_index := 1 }.thread_index = ((1 : Nat) : Int)
      ∧ ∃ s1 evs, p_test ⟨2⟩ { P_STATUS with thread_index := 1 } 7 [true] = some (s1, evs)
        ∧ slot { P_STATUS with thread_index := 1 }.thread_index = some 1
        ∧ 1 < MAX_THREAD_NUM + 1
        ∧ s1.threads 1 = 7
        ∧ Event.start 7 ∈ evs
        ∧ s1.thread_index = (((1 + 1) % 2 : Nat) : Int)
        ∧ 0 ≤ s1.thread_index ∧ s1.thread_index < ((2 : Nat) : Int)
        ∧ (∀ j, j ≠ 1 → s1.threads j = { P_STATUS with thread_index := 1 }.threads j)
        ∧ s1.unit_num = { P_STATUS with thread_index := 1 }.unit_num
        ∧ s1.assertion_num = { P_STATUS with thread_index := 1 }.assertion_num
        ∧ s1.assertion_passed_num = { P_STATUS with thread_index := 1 }.assertion_passed_num
        ∧ s1.assertion_failed_num = { P_STATUS with thread_index := 1 }.assertion_failed_num :=
  ⟨rfl, by decide, by decide, by decide, rfl,
    p_test_threaded_frame ⟨2⟩ 2 1 { P_STATUS with thread_index := 1 } 7 [true] rfl (by decide)
      (by decide) (by decide) rfl⟩

/-! ## Theorems: `p_finish` -/

theorem p_finish_loop_eq (s : PStatus) (n i : Nat) (h : i + n ≤ MAX_THREAD_NUM + 1) :
    p_finish_loop s i n = some (joins_of s (List.range' i n)) := by
  induction n generalizing i with
  | zero => simp [p_finish_loop, joins_of]
  | succ n ih =>
    have hi : i < MAX_THREAD_NUM + 1 := by omega
    simp only [p_finish_loop, if_pos hi, ih (i + 1) (by omega)]
    simp [joins_of, List.range'_succ]

theorem p_finish_eq (cfg : PSettings) (s : PStatus)
    (h : cfg.thread_num ≤ (MAX_THREAD_NUM : Int) + 1) :
    p_finish cfg s = some (s, joins_of s (List.range cfg.thread_num.toNat)) := by
  have h1 : 0 + cfg.thread_num.toNat ≤ MAX_THREAD_NUM + 1 := by omega
  simp only [p_finish, p_finish_loop_eq s _ 0 h1, List.range_eq_range']

/-- C3 at the failing input. With `thread_num = 1`, one `p_test` starts thread 7 in slot 0; the
first `p_finish` joins thread 7 and leaves its handle in the slot, since `p_finish` writes
nothing; the second `p_finish`, with no `p_test` in between, finds the slot still occupied and
calls `pthread_join` on thread 7 again, a thread that was already joined. The state is the same
after both calls. A `p_test` after the first `p_finish` joins the stale handle as well. -/
theorem p_finish_second_call_joins_again :
    (p_test ⟨1⟩ P_STATUS 7 []).map Prod.snd = some [Event.start 7]
      ∧ ((p_test ⟨1⟩ P_STATUS 7 []).bind (fun r0 => p_finish ⟨1⟩ r0.1)).map Prod.snd
        = some [Event.join 7]
      ∧ ((p_test ⟨1⟩ P_STATUS 7 []).bind (fun r0 => p_finish ⟨1⟩ r0.1)).map
          (fun r1 => r1.1.threads 0) = some 7
      ∧ (((p_test ⟨1⟩ P_STATUS 7 []).bind (fun r0 => p_finish ⟨1⟩ r0.1)).bind
          (fun r1 => p_finish ⟨1⟩ r1.1)).map Prod.snd = some [Event.join 7]
      ∧ (((p_test ⟨1⟩ P_STATUS 7 []).bind (fun r0 => p_finish ⟨1⟩ r0.1)).bind
          (fun r1 => p_finish ⟨1⟩ r1.1)).map (fun r2 => r2.1.threads 0) = some 7
      ∧ (((p_test ⟨1⟩ P_STATUS 7 []).bind (fun r0 => p_finish ⟨1⟩ r0.1)).bind
          (fun r1 => p_test ⟨1⟩ r1.1 8 [])).map Prod.snd
        = some [Event.join 7, Event.start 8] := by
  decide

/-- The part of C3 that holds: `p_finish` returns the state it was given (slot table, cursor
and counters), whenever its loop stays inside the table. -/
theorem p_finish_state (cfg : PSettings) (s s1 : PStatus) (evs : List Event)
    (h : p_finish cfg s = some (s1, evs)) : s1 = s := by
  simp only [p_finish] at h
  cases hl : p_finish_loop s 0 cfg.thread_num.toNat with
  | none => simp [hl] at h
  | some e =>
    simp only [hl, Option.some.injEq, Prod.mk.injEq] at h
    exact h.1.symm

/-! ## Theorems: `p_set_thread_num` -/

theorem p_set_thread_num_eq (cfg : PSettings) (n : Int) :
    p_set_thread_num cfg n = (n, { thread_num := n }) := rfl

/-- C10 at the failing input. `p_set_thread_num(257)` makes no check against `MAX_THREAD_NUM`:
it returns 257, the value it was given, and stores it, so that the stored pool size exceeds
`MAX_THREAD_NUM`. -/
theorem p_set_thread_num_beyond_bound :
    (p_set_thread_num P_SETTINGS 257).1 = 257
      ∧ (p_set_thread_num P_SETTINGS 257).2.thread_num = 257
      ∧ (MAX_THREAD_NUM : Int) < (p_set_thread_num P_SETTINGS 257).2.thread_num := by
  decide

/-- With a pool size stored beyond `MAX_THREAD_NUM + 1` the cursor leaves the array: at cursor
257 the slot access of `p_test` is outside `threads[MAX_THREAD_NUM + 1]`. -/
theorem p_test_outside_table :
    p_test (p_set_thread_num P_SETTINGS 300).2 { P_STATUS with thread_index := 257 } 1 []
      = none := by
  rfl

/-! ## Theorems: the stream of the non-stream logging calls -/

theorem log_v_stream (L : LogSettings) (isatty : FILE → Bool) (format : List Nat) :
    (log_vp L isatty format).stream = (if L.p_stdout then FILE.stdout else FILE.stderr)
      ∧ (log_vv L isatty format).stream = (if L.p_stdout then FILE.stdout else FILE.stderr)
      ∧ (log_vd L isatty format).stream = (if L.p_stdout then FILE.stdout else FILE.stderr)
      ∧ (log_vi L isatty format).stream = (if L.p_stdout then FILE.stdout else FILE.stderr)
      ∧ (log_vw L isatty format).stream = (if L.p_stdout then FILE.stdout else FILE.stderr)
      ∧ (log_ve L isatty format).stream = (if L.p_stdout then FILE.stdout else FILE.stderr)
      ∧ (log_vwtf L isatty format).stream = (if L.p_stdout then FILE.stdout else FILE.stderr) :=
  ⟨rfl, rfl, rfl, rfl, rfl, rfl, rfl⟩

/-- C7 at the failing input. With `v_stdout` set and `p_stdout` left at its default `false`,
`log_vv` writes to stderr: every non-stream call reads `p_stdout`, not its own flag. The same
holds for `log_vd`, `log_vi`, `log_vw`, `log_ve`, `log_vwtf` with their flags; and with only
`p_stdout` set, `log_vv` writes to stdout. -/
theorem log_vv_ignores_v_stdout (isatty : FILE → Bool) (format : List Nat) :
    (log_vv { LOG_SETTINGS with v_stdout := true } isatty format).stream = FILE.stderr
      ∧ (log_vd { LOG_SETTINGS with d_stdout := true } isatty format).stream = FILE.stderr
      ∧ (log_vi { LOG_SETTINGS with i_stdout := true } isatty format).stream = FILE.stderr
      ∧ (log_vw { LOG_SETTINGS with w_stdout := true } isatty format).stream = FILE.stderr
      ∧ (log_ve { LOG_SETTINGS with e_stdout := true } isatty format).stream = FILE.stderr
      ∧ (log_vwtf { LOG_SETTINGS with wtf_stdout := true } isatty format).stream = FILE.stderr
      ∧ (log_vv { LOG_SETTINGS with p_stdout := true } isatty format).stream = FILE.stdout :=
  ⟨rfl, rfl, rfl, rfl, rfl, rfl, rfl⟩

/-! ## Theorems: the format string built by `log_vsprintf` and `log_fvprintf` -/

theorem c_str_eq_self (xs : List Nat) (h : 0 ∉ xs) : c_str xs = xs := by
  unfold c_str
  rw [List.takeWhile_eq_self_iff]
  intro x hx
  have : x ≠ 0 := fun h0 => h (h0 ▸ hx)
  simpa using this

theorem c_str_append_nul (xs : List Nat) (h : 0 ∉ xs) : c_str (xs ++ [0]) = xs := by
  unfold c_str
  rw [List.takeWhile_append_of_pos]
  · simp
  · intro x hx
    have : x ≠ 0 := fun h0 => h (h0 ▸ hx)
    simpa using this

theorem strip_loop_true_skip (a b : List Nat) (h : 109 ∉ a) :
    strip_loop true (a ++ 109 :: b) = strip_loop false b := by
  induction a with
  | nil => simp [strip_loop]
  | cons c cs ih =>
    have hc : c ≠ 109 := fun h0 => h (by simp [h0])
    have hcs : 109 ∉ cs := fun h0 => h (by simp [h0])
    simp [strip_loop, hc, ih hcs]

theorem after_m_skip (a b : List Nat) (h : 109 ∉ a) : after_m (a ++ 109 :: b) = b := by
  induction a with
  | nil => simp [after_m]
  | cons c cs ih =>
    have hc : c ≠ 109 := fun h0 => h (by simp [h0])
    have hcs : 109 ∉ cs := fun h0 => h (by simp [h0])
    simp [after_m, hc, ih hcs]

theorem sgr_closed_tail (c : Nat) (cs : List Nat) (h : sgr_closed (c :: cs) = true) :
    sgr_closed cs = true := by
  simp only [sgr_closed, Bool.and_eq_true] at h
  exact h.2

theorem sgr_closed_esc (cs : List Nat) (h : sgr_closed (27 :: cs) = true) : 109 ∈ cs := by
  simp only [sgr_closed, Bool.and_eq_true] at h
  simpa using h.1

theorem sgr_closed_append_right (a b : List Nat) (h : sgr_closed (a ++ b) = true) :
    sgr_closed b = true := by
  induction a with
  | nil => simpa using h
  | cons c cs ih => exact ih (sgr_closed_tail c (cs ++ b) h)

theorem exists_first_m (cs : List Nat) (h : 109 ∈ cs) :
    ∃ a b, cs = a ++ 109 :: b ∧ 109 ∉ a := by
  induction cs with
  | nil => simp at h
  | cons c cs ih =>
    by_cases hc : c = 109
    · exact ⟨[], cs, by simp [hc], by simp⟩
    · have hm : 109 ∈ cs := by
        rcases List.mem_cons.mp h with h1 | h1
        · exact absurd h1.symm hc
        · exact h1
      obtain ⟨a, b, hab, hna⟩ := ih hm
      refine ⟨c :: a, b, by simp [hab], ?_⟩
      intro hmem
      rcases List.mem_cons.mp hmem with h1 | h1
      · exact hc h1.symm
      · exact hna h1

theorem strip_loop_closed (n : Nat) (xs : List Nat) (hn : xs.length ≤ n) (h0 : 0 ∉ xs)
    (hc : sgr_closed xs = true) : strip_loop false (xs ++ [0]) = strip_sgr_aux n xs ++ [0] := by
  induction n generalizing xs with
  | zero =>
    have : xs = [] := List.length_eq_zero.mp (by omega)
    subst this
    simp [strip_loop, strip_sgr_aux]
  | succ n ih =>
    cases xs with
    | nil => simp [strip_loop, strip_sgr_aux]
    | cons c cs =>
      have h0cs : 0 ∉ cs := fun h => h0 (by simp [h])
      have hlen : cs.length ≤ n := by simpa using hn
      by_cases hesc : c = 27
      · subst hesc
        obtain ⟨a, b, hab, hna⟩ := exists_first_m cs (sgr_closed_esc cs hc)
        have hb0 : 0 ∉ b := fun h => h0cs (by simp [hab, h])
        have hblen : b.length ≤ n := by
          have : cs.length = a.length + (b.length + 1) := by simp [hab]
          omega
        have hbc : sgr_closed b = true := by
          have h1 : sgr_closed (a ++ 109 :: b) = true := hab ▸ sgr_closed_tail 27 cs hc
          exact sgr_closed_tail 109 b (sgr_closed_append_right a (109 :: b) h1)
        have e1 : strip_loop false ((27 :: cs) ++ [0]) = strip_loop false (b ++ [0]) := by
          have : (27 :: cs) ++ [0] = 27 :: (a ++ 109 :: (b ++ [0])) := by simp [hab]
          rw [this]
          simp only [strip_loop, if_true]
          exact strip_loop_true_skip a (b ++ [0]) hna
        have e2 : strip_sgr_aux (n + 1) (27 :: cs) = strip_sgr_aux n b := by
          simp only [strip_sgr_aux, if_true]
          rw [hab, after_m_skip a b hna]
        rw [e1, e2]
        exact ih b hblen hb0 hbc
      · have := ih cs hlen h0cs (sgr_closed_tail c cs hc)
        simp [strip_loop, strip_sgr_aux, hesc, this]

theorem after_m_sublist (cs : List Nat) : (after_m cs).Sublist cs := by
  induction cs with
  | nil => simp [after_m]
  | cons c cs ih =>
    by_cases hc : c = 109
    · simp [after_m, hc]
    · simp only [after_m, if_neg hc]
      exact ih.trans (List.sublist_cons_self c cs)

theorem strip_sgr_aux_sublist (n : Nat) (xs : List Nat) : (strip_sgr_aux n xs).Sublist xs := by
  induction n generalizing xs with
  | zero => simp [strip_sgr_aux]
  | succ n ih =>
    cases xs with
    | nil => simp [strip_sgr_aux]
    | cons c cs =>
      by_cases hesc : c = 27
      · simp only [strip_sgr_aux, if_pos hesc]
        exact ((ih (after_m cs)).trans (after_m_sublist cs)).trans (List.sublist_cons_self c cs)
      · simp only [strip_sgr_aux, if_neg hesc]
        exact (ih cs).cons₂ c

theorem strip_sgr_aux_no_esc (n : Nat) (xs : List Nat) : 27 ∉ strip_sgr_aux n xs := by
  induction n generalizing xs with
  | zero => simp [strip_sgr_aux]
  | succ n ih =>
    cases xs with
    | nil => simp [strip_sgr_aux]
    | cons c cs =>
      by_cases hesc : c = 27
      · simp only [strip_sgr_aux, if_pos hesc]
        exact ih (after_m cs)
      · simp only [strip_sgr_aux, if_neg hesc, List.mem_cons, not_or]
        exact ⟨fun h => hesc h.symm, ih cs⟩

/-- The stripped prefix of the specification keeps the bytes outside escape sequences in order
and holds no ESC byte. -/
theorem strip_sgr_spec (pfx : List Nat) : (strip_sgr pfx).Sublist pfx ∧ 27 ∉ strip_sgr pfx :=
  ⟨strip_sgr_aux_sublist _ _, strip_sgr_aux_no_esc _ _⟩

/-- Colours kept: the format string is the prefix byte for byte, the format, one reset. -/
theorem fill_keep (pfx format : List Nat) (hp : 0 ∉ pfx) (hf : 0 ∉ format) :
    strcat_format_reset (fill_logfmt true pfx) format = some (pfx ++ format ++ SGR_RESET) := by
  simp [strcat_format_reset, fill_logfmt, c_str_eq_self pfx hp, c_str_eq_self format hf,
    c_str_append_nul pfx hp]

/-- Colours stripped, every escape sequence of the prefix closed by an `m`: the format string is
the stripped prefix, the format, one reset. -/
theorem fill_strip_closed (pfx format : List Nat) (hp : 0 ∉ pfx) (hf : 0 ∉ format)
    (hc : sgr_closed pfx = true) :
    strcat_format_reset (fill_logfmt false pfx) format
      = some (strip_sgr pfx ++ format ++ SGR_RESET) := by
  have h0 : 0 ∉ strip_sgr pfx := fun h => hp ((strip_sgr_spec pfx).1.subset h)
  have e : fill_logfmt false pfx = strip_sgr pfx ++ [0] := by
    simp only [fill_logfmt, c_str_eq_self pfx hp]
    exact strip_loop_closed pfx.length pfx (le_refl _) hp hc
  simp [strcat_format_reset, e, c_str_eq_self format hf, c_str_append_nul _ h0]

/-- The format string of `log_vsprintf` for prefixes whose escape sequences are all closed. -/
theorem log_vsprintf_closed (L : LogSettings) (pfx format : List Nat) (hp : 0 ∉ pfx)
    (hf : 0 ∉ format) :
    (L.sgr = true → log_vsprintf L pfx format = some (pfx ++ format ++ SGR_RESET))
      ∧ (L.sgr = false → sgr_closed pfx = true →
          log_vsprintf L pfx format = some (strip_sgr pfx ++ format ++ SGR_RESET)
            ∧ 27 ∉ strip_sgr pfx) := by
  constructor
  · intro h
    simp only [log_vsprintf, h]
    exact fill_keep pfx format hp hf
  · intro h hc
    simp only [log_vsprintf, h]
    exact ⟨fill_strip_closed pfx format hp hf hc, (strip_sgr_spec pfx).2⟩

/-- C8 at the failing input. Colours disabled and the prefix ESC `[31` (an escape sequence that
no `m` closes): the loop ends with `is_sgr` still set, so the terminating NUL is never stored
into `logfmt`, and `strcat` works on a buffer that holds no terminated string; the format string
is indeterminate for `log_vsprintf` and for `log_fvprintf`. With the `m` in place the same
call builds the literal text, the format and one reset. -/
theorem log_vsprintf_unclosed_escape :
    fill_logfmt false [27, 91, 51, 49] = []
      ∧ log_vsprintf { LOG_SETTINGS with sgr := false } [27, 91, 51, 49] [37, 115] = none
      ∧ (log_fvprintf { LOG_SETTINGS with sgr := false } (fun _ => true) FILE.stderr
            [27, 91, 51, 49] [37, 115]).logfmt = none
      ∧ log_vsprintf { LOG_SETTINGS with sgr := false } [27, 91, 51, 49, 109, 69, 82, 82]
            [37, 115] = some ([69, 82, 82] ++ [37, 115] ++ SGR_RESET) := by
  decide

/-- C9 (as amended). `log_fvprintf` writes to the stream it is given and keeps the prefix byte
for byte iff the stream is a terminal and `sgr` is set, or the stream is not a terminal and
`sgr_f` is set; in every other combination of (terminal, `sgr`, `sgr_f`) the escape sequences
of the prefix are stripped (for a prefix whose escape sequences are each closed by an `m`) and
no ESC byte of the prefix is left. In all combinations the format follows as it is and one
reset sequence ends the string. -/
theorem log_fvprintf_colour (L : LogSettings) (isatty : FILE → Bool) (stream : FILE)
    (pfx format : List Nat) (hp : 0 ∉ pfx) (hf : 0 ∉ format) :
    (log_fvprintf L isatty stream pfx format).stream = stream
      ∧ ((isatty stream = true ∧ L.sgr = true) ∨ (isatty stream = false ∧ L.sgr_f = true) →
          (log_fvprintf L isatty stream pfx format).logfmt
            = some (pfx ++ format ++ SGR_RESET))
      ∧ (¬ ((isatty stream = true ∧ L.sgr = true) ∨ (isatty stream = false ∧ L.sgr_f = true)) →
          sgr_closed pfx = true →
          (log_fvprintf L isatty stream pfx format).logfmt
              = some (strip_sgr pfx ++ format ++ SGR_RESET)
            ∧ 27 ∉ strip_sgr pfx) := by
  refine ⟨rfl, ?_, ?_⟩
  · intro h
    have hk : ((isatty stream && L.sgr) || (!isatty stream && L.sgr_f)) = true := by
      rcases h with ⟨h1, h2⟩ | ⟨h1, h2⟩ <;> simp [h1, h2]
    simp only [log_fvprintf, hk]
    exact fill_keep pfx format hp hf
  · intro h hc
    have hk : ((isatty stream && L.sgr) || (!isatty stream && L.sgr_f)) = false := by
      cases h1 : isatty stream <;> cases h2 : L.sgr <;> cases h3 : L.sgr_f <;>
        simp_all
    simp only [log_fvprintf, hk]
    exact ⟨fill_strip_closed pfx format hp hf hc, (strip_sgr_spec pfx).2⟩

theorem log_fvprintf_colour_witness :
    0 ∉ SGR_RED ++ [69, 82, 82] ∧ 0 ∉ [37, 115]
      ∧ sgr_closed (SGR_RED ++ [69, 82, 82]) = true
      ∧ (log_fvprintf LOG_SETTINGS (fun _ => true) FILE.stderr
          (SGR_RED ++ [69, 82, 82]) [37, 115]).logfmt
        = some (SGR_RED ++ [69, 82, 82] ++ [37, 115] ++ SGR_RESET)
      ∧ (log_fvprintf LOG_SETTINGS (fun _ => false) FILE.stderr
          (SGR_RED ++ [69, 82, 82]) [37, 115]).logfmt
        = some (strip_sgr (SGR_RED ++ [69, 82, 82]) ++ [37, 115] ++ SGR_RESET)
      ∧ 27 ∉ strip_sgr (SGR_RED ++ [69, 82, 82]) :=
  ⟨by decide, by decide, by decide,
    (log_fvprintf_colour LOG_SETTINGS (fun _ => true) FILE.stderr
      (SGR_RED ++ [69, 82, 82]) [37, 115] (by decide) (by decide)).2.1 (by decide),
    (log_fvprintf_colour LOG_SETTINGS (fun _ => false) FILE.stderr
      (SGR_RED ++ [69, 82, 82]) [37, 115] (by decide) (by decide)).2.2 (by decide) (by decide)⟩

/-- C9 as stated fails: on a terminal with `sgr` off and `sgr_f` on, `log_fvprintf` strips the
escape sequence of the prefix (here ESC `[31m` before the text `ERR`), although `sgr_f` is
enabled: `sgr_f` is read for streams that are not terminals only. -/
theorem log_fvprintf_sgr_f_on_terminal :
    { LOG_SETTINGS with sgr := false, sgr_f := true }.sgr_f = true
      ∧ (log_fvprintf { LOG_SETTINGS with sgr := false, sgr_f := true } (fun _ => true)
          FILE.stderr (SGR_RED ++ [69, 82, 82]) [37, 115]).logfmt
        = some ([69, 82, 82] ++ [37, 115] ++ SGR_RESET)
      ∧ (log_fvprintf { LOG_SETTINGS with sgr := false, sgr_f := true } (fun _ => true)
          FILE.stderr (SGR_RED ++ [69, 82, 82]) [37, 115]).logfmt
        ≠ some (SGR_RED ++ [69, 82, 82] ++ [37, 115] ++ SGR_RESET) := by
  decide

/-! ## Theorems: runs of `p_test` with a fixed pool size -/

theorem p_test_threaded_eq (N i : Nat) (s : PStatus) (tid : Nat) (u : List Bool)
    (h1 : 1 ≤ N) (h2 : N ≤ MAX_THREAD_NUM) (hi : i < N) (hc : s.thread_index = (i : Int)) :
    p_test ⟨N⟩ s tid u
      = some ({ s with
                  threads := Function.update s.threads i tid
                  thread_index := (((i + 1) % N : Nat) : Int) },
              (if s.threads i ≠ 0 then [Event.join (s.threads i)] else [])
                ++ [Event.start tid]) := by
  have hs : slot (i : Int) = some i := slot_natCast i (by omega)
  have hne : ((N : Nat) : Int) ≠ 0 := by exact_mod_cast (by omega : N ≠ 0)
  simp only [p_test, if_pos hne, hc, hs, tmod_succ_natCast]

theorem p_test_calls_cons (cfg : PSettings) (s : PStatus) (x : Submission)
    (rest : List Submission) :
    p_test_calls cfg s (x :: rest)
      = match p_test cfg s x.tid x.unit_func with
        | none => none
        | some (s1, evs) =>
          match p_test_calls cfg s1 rest with
          | none => none
          | some (s2, calls) => some (s2, { cursor := s.thread_index, events := evs } :: calls) :=
  rfl

theorem p_test_calls_snoc (cfg : PSettings) (s : PStatus) (l : List Submission)
    (x : Submission) :
    p_test_calls cfg s (l ++ [x])
      = match p_test_calls cfg s l with
        | none => none
        | some (s1, calls) =>
          match p_test cfg s1 x.tid x.unit_func with
          | none => none
          | some (s2, evs) => some (s2, calls ++ [{ cursor := s1.thread_index, events := evs }]) := by
  induction l generalizing s with
  | nil =>
    rw [List.nil_append, p_test_calls_cons]
    simp only [p_test_calls]
    cases p_test cfg s x.tid x.unit_func with
    | none => rfl
    | some r => rfl
  | cons y ys ih =>
    rw [List.cons_append, p_test_calls_cons, p_test_calls_cons]
    cases p_test cfg s y.tid y.unit_func with
    | none => rfl
    | some r =>
      obtain ⟨s1, evs⟩ := r
      simp only []
      rw [ih s1]
      cases p_test_calls cfg s1 ys with
      | none => rfl
      | some r1 =>
        obtain ⟨s2, calls⟩ := r1
        simp only []
        cases p_test cfg s2 x.tid x.unit_func with
        | none => rfl
        | some r2 => rfl

theorem mod_ne_of_lt_add (N j m : Nat) (hjm : j < m) (hm : m < j + N) : j % N ≠ m % N := by
  intro h
  have hd : N ∣ m - j := (Nat.modEq_iff_dvd' (le_of_lt hjm)).mp h
  have := Nat.le_of_dvd (by omega) hd
  omega

theorem p_test_calls_spec (N : Nat) (h1 : 1 ≤ N) (h2 : N ≤ MAX_THREAD_NUM)
    (subs : List Submission) (hnz : ∀ x ∈ subs, x.tid ≠ 0) :
    ∃ s calls, p_test_calls ⟨N⟩ P_STATUS subs = some (s, calls)
      ∧ RunInv N (tids subs) s
      ∧ calls.length = subs.length
      ∧ ∀ k, k < subs.length →
          calls[k]? = some ⟨((k % N : Nat) : Int), expected_events N (tids subs) k⟩ := by
  induction subs using List.reverseRecOn with
  | nil =>
    refine ⟨P_STATUS, [], rfl, ⟨?_, ?_, ?_⟩, rfl, ?_⟩
    · simp [tids, P_STATUS]
    · intro j hj; simp [tids] at hj
    · intro i _; rfl
    · intro k hk; simp at hk
  | append_singleton l x ih =>
    have hnzl : ∀ y ∈ l, y.tid ≠ 0 := fun y hy => hnz y (by simp [hy])
    have hx : x.tid ≠ 0 := hnz x (by simp)
    obtain ⟨s, calls, hrun, hinv, hlen, hcalls⟩ := ih hnzl
    have hml : (tids l).length = l.length := by simp [tids]
    have hlt : l.length % N < N := Nat.mod_lt _ (by omega)
    have hcur : s.thread_index = ((l.length % N : Nat) : Int) := by rw [hinv.cursor, hml]
    have htest := p_test_threaded_eq N (l.length % N) s x.tid x.unit_func h1 h2 hlt hcur
    have hslot : s.threads (l.length % N)
        = if N ≤ l.length then (tids l).getD (l.length - N) 0 else 0 := by
      by_cases hN : N ≤ l.length
      · rw [if_pos hN, Nat.mod_eq_sub_mod hN]
        exact hinv.recent (l.length - N) (by omega) (by omega)
      · rw [if_neg hN, Nat.mod_eq_of_lt (by omega)]
        exact hinv.unused l.length (by omega)
    have hev : (if s.threads (l.length % N) ≠ 0 then [Event.join (s.threads (l.length % N))]
          else []) ++ [Event.start x.tid] = expected_events N (tids (l ++ [x])) l.length := by
      have hgx : (tids (l ++ [x])).getD l.length 0 = x.tid := by
        simp [tids, List.getD_eq_getElem?_getD]
      by_cases hN : N ≤ l.length
      · have hj : l.length - N < l.length := by omega
        have hgl : (tids (l ++ [x])).getD (l.length - N) 0 = (tids l).getD (l.length - N) 0 := by
          simp only [tids, List.map_append]
          exact List.getD_append _ _ _ _ (by simpa using hj)
        have hne : (tids l).getD (l.length - N) 0 ≠ 0 := by
          have hmem : (tids l).getD (l.length - N) 0 ∈ tids l := by
            rw [List.getD_eq_getElem?_getD, List.getElem?_eq_getElem (by simpa [tids] using hj)]
            simp
          simp only [tids, List.mem_map] at hmem
          obtain ⟨y, hy, hyt⟩ := hmem
          simp only [tids]
          rw [← hyt]
          exact hnzl y hy
        simp only [expected_events, hslot, if_pos hN, hgx, hgl, if_pos hne]
      · simp only [expected_events, hslot, if_neg hN, hgx]
        simp
    refine ⟨{ s with
        threads := Function.update s.threads (l.length % N) x.tid
        thread_index := (((l.length % N + 1) % N : Nat) : Int) },
      calls ++ [{ cursor := s.thread_index,
                  events := (if s.threads (l.length % N) ≠ 0
                    then [Event.join (s.threads (l.length % N))] else [])
                    ++ [Event.start x.tid] }], ?_, ⟨?_, ?_, ?_⟩, ?_, ?_⟩
    · rw [p_test_calls_snoc, hrun]
      simp only [htest]
    · simp only [tids, List.map_append, List.length_append, List.length_map, List.length_singleton,
        List.map_cons, List.map_nil]
      rw [Nat.mod_add_mod]
    · intro j hj hjN
      simp only [tids, List.map_append, List.length_append, List.length_map,
        List.length_singleton, List.map_cons, List.map_nil] at hj hjN ⊢
      by_cases hjl : j = l.length
      · subst hjl
        simp [List.getD_eq_getElem?_getD]
      · have hjlt : j < l.length := by omega
        have hne := mod_ne_of_lt_add N j l.length hjlt (by omega)
        show Function.update s.threads (l.length % N) x.tid (j % N) = _
        rw [Function.update_noteq hne]
        rw [List.getD_append _ _ _ _ (by simpa using hjlt)]
        have := hinv.recent j (by simpa [tids] using hjlt) (by simp [tids]; omega)
        simpa [tids] using this
    · intro i hi
      simp only [tids, List.map_append, List.length_append, List.length_map,
        List.length_singleton, List.map_cons, List.map_nil] at hi
      have hle : l.length % N ≤ l.length := Nat.mod_le _ _
      have hne : i ≠ l.length % N := by omega
      show Function.update s.threads (l.length % N) x.tid i = 0
      rw [Function.update_noteq hne]
      exact hinv.unused i (by simp [tids]; omega)
    · simp [hlen]
    · intro k hk
      simp only [List.length_append, List.length_singleton] at hk
      by_cases hkl : k = l.length
      · subst hkl
        rw [List.getElem?_append_right (by omega), hlen, Nat.sub_self]
        simp only [List.getElem?_cons_zero, hcur, hev]
      · have hklt : k < l.length := by omega
        rw [List.getElem?_append_left (by omega), hcalls k hklt]
        have e : expected_events N (tids (l ++ [x])) k = expected_events N (tids l) k := by
          have a1 : (tids (l ++ [x])).getD k 0 = (tids l).getD k 0 := by
            simp only [tids, List.map_append]
            exact List.getD_append _ _ _ _ (by simpa using hklt)
          have a2 : (tids (l ++ [x])).getD (k - N) 0 = (tids l).getD (k - N) 0 := by
            simp only [tids, List.map_append]
            exact List.getD_append _ _ _ _ (by simp; omega)
          simp only [expected_events, a1, a2]
        rw [e]

theorem trace_append (a b : List Call) : trace (a ++ b) = trace a ++ trace b := by
  simp [trace, List.flatMap_append]

theorem trace_singleton (c : Call) : trace [c] = c.events := by
  simp [trace]

theorem live_append (t e : List Event) : live (t ++ e) = e.foldl live_step (live t) := by
  simp [live, List.foldl_append]

theorem getD_eq_getElem_of_lt (hs : List Nat) (k : Nat) (h : k < hs.length) :
    hs.getD k 0 = hs[k] := by
  rw [List.getD_eq_getElem?_getD, List.getElem?_eq_getElem h]
  rfl

theorem take_succ_getD (hs : List Nat) (k : Nat) (h : k < hs.length) :
    hs.take (k + 1) = hs.take k ++ [hs.getD k 0] := by
  rw [List.take_succ, List.getElem?_eq_getElem h, getD_eq_getElem_of_lt hs k h]
  rfl

/-- The live threads after the first `k` calls are the threads of the last `N` of the first `k`
submissions, oldest first. -/
theorem live_window (N : Nat) (h1 : 1 ≤ N) (hs : List Nat) (calls : List Call)
    (hcalls : ∀ k, k < hs.length → ∃ c, calls[k]? = some c ∧ c.events = expected_events N hs k)
    (k : Nat) (hk : k ≤ hs.length) :
    live (trace (calls.take k)) = (hs.take k).drop (k - N) := by
  induction k with
  | zero => simp [trace, live]
  | succ k ih =>
    have hk1 : k < hs.length := by omega
    obtain ⟨c, hc, hev⟩ := hcalls k hk1
    have ih1 := ih (by omega)
    rw [List.take_succ, hc, trace_append, live_append, ih1]
    simp only [Option.toList, trace_singleton, hev, expected_events]
    have htk : (hs.take k).length = k := by simp; omega
    by_cases hN : N ≤ k
    · have hlt : k - N < (hs.take k).length := by rw [htk]; omega
      have hhead : (hs.take k).drop (k - N)
          = hs.getD (k - N) 0 :: (hs.take k).drop (k - N + 1) := by
        rw [List.drop_eq_getElem_cons hlt, List.getElem_take,
          getD_eq_getElem_of_lt hs (k - N) (by omega)]
      rw [if_pos hN, hhead]
      simp only [List.singleton_append, List.foldl_cons, List.foldl_nil, live_step,
        List.erase_cons_head]
      rw [take_succ_getD hs k hk1, List.drop_append_of_le_length (by omega)]
      have : k + 1 - N = k - N + 1 := by omega
      rw [this]
    · have h0 : k - N = 0 := by omega
      have h1 : k + 1 - N = 0 := by omega
      rw [if_neg hN, h0, h1]
      simp only [List.nil_append, List.foldl_cons, List.foldl_nil, live_step, List.drop_zero]
      rw [take_succ_getD hs k hk1]

theorem map_update_range (f : Nat → Nat) (N i a : Nat) :
    (List.range N).map (Function.update f i a) = ((List.range N).map f).set i a := by
  apply List.ext_getElem
  · simp
  · intro n h1 h2
    simp only [List.getElem_map, List.getElem_range, List.getElem_set, Function.update]
    by_cases h : n = i
    · simp [h]
    · have h' : ¬ i = n := fun e => h e.symm
      simp [h, h']

theorem filter_set_perm (l : List Nat) (i a : Nat) (hi : i < l.length) (ha : a ≠ 0) :
    ((l.set i a).filter (fun t => t ≠ 0)).Perm
      ((if l[i] ≠ 0 then (l.filter (fun t => t ≠ 0)).erase l[i] else l.filter (fun t => t ≠ 0))
        ++ [a]) := by
  have hl : l = l.take i ++ l[i] :: l.drop (i + 1) := by
    rw [List.getElem_cons_drop, List.take_append_drop]
  have hset : l.set i a = l.take i ++ a :: l.drop (i + 1) := List.set_eq_take_cons_drop a hi
  generalize l.take i = A at hl hset
  generalize l.drop (i + 1) = B at hl hset
  generalize l[i] = v at hl
  rw [hset, hl]
  have hfa : (fun t : Nat => decide (t ≠ 0)) a = true := by simpa using ha
  simp only [List.filter_append, List.filter_cons, hfa, if_true]
  have hmid : (List.filter (fun t => decide (t ≠ 0)) A
      ++ a :: List.filter (fun t => decide (t ≠ 0)) B).Perm
      ((List.filter (fun t => decide (t ≠ 0)) A ++ List.filter (fun t => decide (t ≠ 0)) B)
        ++ [a]) := by
    refine List.perm_middle.trans ?_
    exact @List.perm_append_comm _ [a] _
  by_cases hv : v = 0
  · simp only [hv, ne_eq, not_true_eq_false, decide_False, if_false]
    simpa using hmid
  · have hfv : decide (v ≠ 0) = true := by simpa using hv
    simp only [hfv, if_true, ne_eq, hv, not_false_eq_true]
    refine hmid.trans (List.Perm.append_right _ ?_)
    have h1 := (@List.perm_middle _ v (List.filter (fun t => decide (t ≠ 0)) A)
      (List.filter (fun t => decide (t ≠ 0)) B)).erase v
    rw [List.erase_cons_head] at h1
    exact h1.symm

/-- One threaded `p_test` keeps the live threads and the occupied slots in step. -/
theorem live_step_occupied (N i : Nat) (s : PStatus) (tid : Nat) (L : List Nat) (hi : i < N)
    (ht : tid ≠ 0) (hL : L.Perm (occupied N s)) :
    (((if s.threads i ≠ 0 then [Event.join (s.threads i)] else []) ++ [Event.start tid]).foldl
        live_step L).Perm
      (occupied N { s with threads := Function.update s.threads i tid }) := by
  have hlen : i < ((List.range N).map s.threads).length := by simpa using hi
  have hget : ((List.range N).map s.threads)[i] = s.threads i := by simp
  have hp := filter_set_perm ((List.range N).map s.threads) i tid hlen ht
  rw [hget] at hp
  simp only [occupied, map_update_range]
  refine List.Perm.trans ?_ hp.symm
  by_cases hv : s.threads i = 0
  · simp only [hv, ne_eq, not_true_eq_false, if_false, List.nil_append, List.foldl_cons,
      List.foldl_nil, live_step]
    exact List.Perm.append_right _ hL
  · simp only [ne_eq, hv, not_false_eq_true, if_true, List.singleton_append, List.foldl_cons,
      List.foldl_nil, live_step]
    exact List.Perm.append_right _ (hL.erase _)

theorem p_test_calls_live_perm (N : Nat) (h1 : 1 ≤ N) (h2 : N ≤ MAX_THREAD_NUM)
    (subs : List Submission) (hnz : ∀ x ∈ subs, x.tid ≠ 0) (s : PStatus) (calls : List Call)
    (hrun : p_test_calls ⟨N⟩ P_STATUS subs = some (s, calls)) :
    (live (trace calls)).Perm (occupied N s) := by
  induction subs using List.reverseRecOn generalizing s calls with
  | nil =>
    simp only [p_test_calls, Option.some.injEq, Prod.mk.injEq] at hrun
    obtain ⟨hs, hc⟩ := hrun
    subst hs hc
    simp [trace, live, occupied, P_STATUS]
  | append_singleton l x ih =>
    have hnzl : ∀ y ∈ l, y.tid ≠ 0 := fun y hy => hnz y (by simp [hy])
    have hx : x.tid ≠ 0 := hnz x (by simp)
    obtain ⟨s0, calls0, hrun0, hinv, _, _⟩ := p_test_calls_spec N h1 h2 l hnzl
    have hlt : l.length % N < N := Nat.mod_lt _ (by omega)
    have hcur : s0.thread_index = ((l.length % N : Nat) : Int) := by
      rw [hinv.cursor]; simp [tids]
    have htest := p_test_threaded_eq N (l.length % N) s0 x.tid x.unit_func h1 h2 hlt hcur
    rw [p_test_calls_snoc, hrun0] at hrun
    simp only [htest, Option.some.injEq, Prod.mk.injEq] at hrun
    obtain ⟨hs, hc⟩ := hrun
    subst hs hc
    rw [trace_append, live_append, trace_singleton]
    exact live_step_occupied N (l.length % N) s0 x.tid _ hlt hx (ih hnzl s0 calls0 hrun0)

theorem foldl_live_step_joins (s : PStatus) (idxs : List Nat) (L : List Nat) :
    (joins_of s idxs).foldl live_step L
      = L.diff ((idxs.map s.threads).filter (fun t => t ≠ 0)) := by
  induction idxs generalizing L with
  | nil => simp [joins_of]
  | cons i is ih =>
    have hj : joins_of s (i :: is)
        = (if s.threads i ≠ 0 then [Event.join (s.threads i)] else []) ++ joins_of s is := by
      simp [joins_of]
    rw [hj, List.foldl_append]
    by_cases hv : s.threads i = 0
    · have hF : ((i :: is).map s.threads).filter (fun t => t ≠ 0)
          = (is.map s.threads).filter (fun t => t ≠ 0) := by simp [hv]
      rw [hF, if_neg (by simp [hv]), List.foldl_nil]
      exact ih L
    · have hF : ((i :: is).map s.threads).filter (fun t => t ≠ 0)
          = s.threads i :: (is.map s.threads).filter (fun t => t ≠ 0) := by simp [hv]
      rw [hF, if_pos hv, List.diff_cons]
      simp only [List.foldl_cons, List.foldl_nil, live_step]
      exact ih _

theorem diff_eq_nil_of_perm (L F : List Nat) (h : L.Perm F) : L.diff F = [] := by
  induction F generalizing L with
  | nil => simpa using List.perm_nil.mp h
  | cons a F ih =>
    rw [List.diff_cons]
    apply ih
    have := h.erase a
    rwa [List.erase_cons_head] at this

/-- C1. With the pool size fixed at `N`, `1 <= N <= MAX_THREAD_NUM`, before the first
submission, every sequence of `p_test` submissions (handles nonzero) runs through without
leaving the slot table, and: call `k` finds the cursor at `k mod N`, joins the thread of
submission `k - N` if there is one and then starts its own thread, and does nothing else; so
submissions `k` and `k + N` use the same slot `k mod N`, the call of submission `k + N` issues
exactly the join of the thread of submission `k` followed by the start of its own thread, the
start of the thread of `k` lies in the trace before that call, and the whole trace is the trace
up to that call, then this join and this start, then the rest. After any number `k` of calls
the threads started and not yet joined are those of the last `N` submissions made, so no two
live threads share a slot. When call `k` returns, slot `k mod N` holds the handle of
submission `k`. -/
theorem p_test_slot_reuse (N : Nat) (h1 : 1 ≤ N) (h2 : N ≤ MAX_THREAD_NUM)
    (subs : List Submission) (hnz : ∀ x ∈ subs, x.tid ≠ 0) :
    ∃ s calls, p_test_calls ⟨N⟩ P_STATUS subs = some (s, calls)
      ∧ calls.length = subs.length
      ∧ (∀ k, k < subs.length →
          calls[k]? = some ⟨((k % N : Nat) : Int), expected_events N (tids subs) k⟩)
      ∧ (∀ k, k + N < subs.length →
          calls[k]?.map Call.cursor = some ((k % N : Nat) : Int)
          ∧ calls[k + N]? = some ⟨((k % N : Nat) : Int),
              [Event.join ((tids subs).getD k 0), Event.start ((tids subs).getD (k + N) 0)]⟩
          ∧ Event.start ((tids subs).getD k 0) ∈ trace (calls.take (k + N))
          ∧ trace calls = trace (calls.take (k + N))
              ++ [Event.join ((tids subs).getD k 0), Event.start ((tids subs).getD (k + N) 0)]
              ++ trace (calls.drop (k + N + 1)))
      ∧ (∀ k, k ≤ subs.length →
          live (trace (calls.take k)) = ((tids subs).take k).drop (k - N))
      ∧ (∀ k, k < subs.length →
          ∃ sk ck, p_test_calls ⟨N⟩ P_STATUS (subs.take (k + 1)) = some (sk, ck)
            ∧ sk.threads (k % N) = (tids subs).getD k 0) := by
  obtain ⟨s, calls, hrun, _, hlen, hcalls⟩ := p_test_calls_spec N h1 h2 subs hnz
  have hml : (tids subs).length = subs.length := by simp [tids]
  refine ⟨s, calls, hrun, hlen, hcalls, ?_, ?_, ?_⟩
  rotate_left 2
  · intro k hk
    obtain ⟨sk, ck, hrunk, hinvk, _, _⟩ := p_test_calls_spec N h1 h2 (subs.take (k + 1))
      (fun x hx => hnz x (List.mem_of_mem_take hx))
    have hlk : (tids (subs.take (k + 1))).length = k + 1 := by
      simp only [tids, List.length_map, List.length_take]
      omega
    refine ⟨sk, ck, hrunk, ?_⟩
    rw [hinvk.recent k (by omega) (by omega)]
    simp only [tids, List.map_take, List.getD_eq_getElem?_getD, List.getElem?_take]
    rw [if_pos (by omega)]
  · intro k hk
    have hck := hcalls k (by omega)
    have hckN : calls[k + N]? = some ⟨((k % N : Nat) : Int),
        [Event.join ((tids subs).getD k 0), Event.start ((tids subs).getD (k + N) 0)]⟩ := by
      rw [hcalls (k + N) hk, Nat.add_mod_right]
      simp [expected_events]
    refine ⟨by rw [hck]; rfl, hckN, ?_, ?_⟩
    · have hmem : (⟨((k % N : Nat) : Int), expected_events N (tids subs) k⟩ : Call)
          ∈ calls.take (k + N) := by
        apply @List.getElem?_mem _ _ k
        rw [List.getElem?_take, if_pos (by omega), hck]
      simp only [trace, List.mem_flatMap]
      exact ⟨_, hmem, by simp [expected_events]⟩
    · have hlt : k + N < calls.length := by omega
      have hsplit : calls = calls.take (k + N) ++ calls[k + N] :: calls.drop (k + N + 1) := by
        rw [List.getElem_cons_drop, List.take_append_drop]
      have hc : calls[k + N] = ⟨((k % N : Nat) : Int),
          [Event.join ((tids subs).getD k 0), Event.start ((tids subs).getD (k + N) 0)]⟩ := by
        have := hckN
        rw [List.getElem?_eq_getElem hlt] at this
        exact Option.some.inj this
      nth_rewrite 1 [hsplit]
      rw [hc, trace_append]
      simp [trace]
  · intro k hk
    apply live_window N h1 (tids subs) calls
    · intro j hj
      exact ⟨_, hcalls j (by omega), rfl⟩
    · omega

theorem p_test_slot_reuse_witness :
    1 ≤ 2 ∧ 2 ≤ MAX_THREAD_NUM ∧ (∀ x ∈ submit_ABC, x.tid ≠ 0)
      ∧ ∃ s calls, p_test_calls ⟨2⟩ P_STATUS submit_ABC = some (s, calls)
        ∧ calls[0]? = some ⟨0, [Event.start 1]⟩
        ∧ calls[1]? = some ⟨1, [Event.start 2]⟩
        ∧ calls[2]? = some ⟨0, [Event.join 1, Event.start 3]⟩
        ∧ live (trace (calls.take 2)) = [1, 2]
        ∧ live (trace (calls.take 3)) = [2, 3] := by
  refine ⟨by decide, by decide, by decide, ?_⟩
  obtain ⟨s, calls, hrun, _, hall, _, hlive, _⟩ :=
    p_test_slot_reuse 2 (by decide) (by decide) submit_ABC (by decide)
  exact ⟨s, calls, hrun, hall 0 (by decide), hall 1 (by decide), hall 2 (by decide),
    hlive 2 (by decide), hlive 3 (by decide)⟩

/-- C2. With the pool size fixed at `N`, `1 <= N <= MAX_THREAD_NUM`, for every sequence of
`p_test` submissions (handles nonzero) followed by `p_finish`: both run through, every call `k`
starts the thread of submission `k`, and each such thread is joined either by the later call
`k + N` that reuses its slot or, when there is no such call, by `p_finish`; replaying the whole
trace, no thread that was started is left without its join. -/
theorem p_finish_joins_all (N : Nat) (h1 : 1 ≤ N) (h2 : N ≤ MAX_THREAD_NUM)
    (subs : List Submission) (hnz : ∀ x ∈ subs, x.tid ≠ 0) :
    ∃ s calls evs, p_test_calls ⟨N⟩ P_STATUS subs = some (s, calls)
      ∧ p_finish ⟨N⟩ s = some (s, evs)
      ∧ (∀ k, k < subs.length →
          ∃ c, calls[k]? = some c ∧ Event.start ((tids subs).getD k 0) ∈ c.events)
      ∧ (∀ k, k < subs.length →
          (k + N < subs.length
            ∧ ∃ c, calls[k + N]? = some c ∧ Event.join ((tids subs).getD k 0) ∈ c.events)
          ∨ (subs.length ≤ k + N ∧ Event.join ((tids subs).getD k 0) ∈ evs))
      ∧ live (trace calls ++ evs) = [] := by
  obtain ⟨s, calls, hrun, hinv, hlen, hcalls⟩ := p_test_calls_spec N h1 h2 subs hnz
  have hml : (tids subs).length = subs.length := by simp [tids]
  have hfin : p_finish ⟨N⟩ s = some (s, joins_of s (List.range N)) := by
    have := p_finish_eq ⟨N⟩ s (by simp only; exact_mod_cast (by omega : N ≤ MAX_THREAD_NUM + 1))
    simpa using this
  refine ⟨s, calls, _, hrun, hfin, ?_, ?_, ?_⟩
  · intro k hk
    exact ⟨_, hcalls k hk, by simp [expected_events]⟩
  · intro k hk
    by_cases hkN : k + N < subs.length
    · left
      refine ⟨hkN, _, hcalls (k + N) hkN, ?_⟩
      simp [expected_events]
    · right
      refine ⟨by omega, ?_⟩
      have hslot := hinv.recent k (by omega) (by omega)
      have hne : (tids subs).getD k 0 ≠ 0 := by
        have hmem : (tids subs).getD k 0 ∈ tids subs := by
          rw [getD_eq_getElem_of_lt _ k (by omega)]
          exact List.getElem_mem _
        simp only [tids, List.mem_map] at hmem
        obtain ⟨y, hy, hyt⟩ := hmem
        simp only [tids]
        rw [← hyt]
        exact hnz y hy
      simp only [joins_of, List.mem_flatMap, List.mem_range]
      refine ⟨k % N, Nat.mod_lt _ (by omega), ?_⟩
      rw [hslot, if_pos hne]
      simp
  · rw [live_append, foldl_live_step_joins]
    exact diff_eq_nil_of_perm _ _ (p_test_calls_live_perm N h1 h2 subs hnz s calls hrun)

theorem p_finish_joins_all_witness :
    1 ≤ 2 ∧ 2 ≤ MAX_THREAD_NUM ∧ (∀ x ∈ submit_ABC, x.tid ≠ 0)
      ∧ ∃ s calls evs, p_test_calls ⟨2⟩ P_STATUS submit_ABC = some (s, calls)
        ∧ p_finish ⟨2⟩ s = some (s, evs)
        ∧ live (trace calls ++ evs) = [] := by
  refine ⟨by decide, by decide, by decide, ?_⟩
  obtain ⟨s, calls, evs, hrun, hfin, _, _, hlive⟩ :=
    p_finish_joins_all 2 (by decide) (by decide) submit_ABC (by decide)
  exact ⟨s, calls, evs, hrun, hfin, hlive⟩

/-! ## Theorems: the counters over runs of units executed by `p_test` itself -/

end Pride
